import Mathlib

/-!
Shallow embedding of the resource-path reconciliation core of the
apigateway-resource-creator repository, together with theorems settling the
frozen claims about it.

The embedding follows the source files:
  * apiGatewayCreator.py — APIGatewayManager.parse_uri_path,
    find_resource_by_path, get_root_resource_id, create_resource,
    ensure_resources_exist, create_http_method, create_options_method,
    and create_endpoint_workflow;
  * lambda-apigateway-creator/api_gateway_operations.py —
    create_resource_hierarchy and the CORS step of index._create_endpoint.

Remote state is modelled as an association list from resource path to
resource id (the gateway's resource listing); remote-call outcomes that the
code receives from the external system (confirmation answers, ids assigned
to created resources, success of method-configuration calls) are supplied by
an explicit environment of oracles.  Each run yields, besides the value the
Python function returns, a trace of the remote calls and log events it
issued, so that claims about call counts and call ordering can be stated.
-/

namespace ApiGatewayCreator

/-- Characters matched by the character class w in the source regexes
(ASCII letters, digits and underscore; the paths this tool handles are
ASCII). -/
def isWordChar (c : Char) : Bool := c.isAlphanum || c = '_'

/-- Python str.split with separator slash, on character lists: splits at
every slash and keeps empty fields, so the result is always nonempty. -/
def splitSlash : List Char → List (List Char)
  | [] => [[]]
  | c :: rest =>
    if c = '/' then [] :: splitSlash rest
    else
      match splitSlash rest with
      | [] => [[c]]
      | s :: ss => (c :: s) :: ss

/-- Python str.strip with argument slash: drop every leading and trailing
slash character. -/
def stripSlashes (l : List Char) : List Char :=
  ((l.dropWhile (fun c => c = '/')).reverse.dropWhile (fun c => c = '/')).reverse

/-- All captures of the regex findall for a brace-enclosed run of word
characters, leftmost, as in re.findall applied with the source's parameter
pattern.  The scan advances one character at a time; this agrees with the
regex engine's skip past each match because a matched token consists of word
characters and a closing brace only, so no further opening brace — and hence
no further match — can begin inside a matched region. -/
def findBraceTokens : List Char → List (List Char)
  | [] => []
  | c :: rest =>
    if c = '{' then
      let w := rest.takeWhile isWordChar
      if w ≠ [] ∧ (rest.drop w.length).head? = some '}' then
        w :: findBraceTokens rest
      else
        findBraceTokens rest
    else findBraceTokens rest

/-- Whether the string contains the given character. -/
def containsChar (s : String) (c : Char) : Bool := s.data.contains c

/-- One parsed path component, as built by parse_uri_path: the cumulative
path, the literal segment, the parameter flag, and the captured parameter
name (absent when the segment is not flagged as a parameter). -/
structure PathPart where
  path : String
  segment : String
  is_param : Bool
  param_name : Option String
deriving Repr, DecidableEq

/-- Loop body of parse_uri_path: walk the segments building the cumulative
path.  The unguarded index access findall(...)[0] in the source raises
IndexError when a segment contains both braces but the parameter regex finds
no capture; that exceptional exit is modelled as the value none. -/
def parseLoop (acc : String) : List String → Option (List PathPart)
  | [] => some []
  | seg :: rest =>
    let current := acc ++ "/" ++ seg
    if containsChar seg '{' && containsChar seg '}' then
      match findBraceTokens seg.data with
      | [] => none
      | w :: _ =>
        (parseLoop current rest).map
          (fun ps => ⟨current, seg, true, some (String.mk w)⟩ :: ps)
    else
      (parseLoop current rest).map (fun ps => ⟨current, seg, false, none⟩ :: ps)

/-- APIGatewayManager.parse_uri_path: strip surrounding slashes, split on
slashes (an emptied path gives no segments), and walk the segments building
cumulative paths and parameter flags.  Returns none when the source would
raise IndexError. -/
def parse_uri_path (uri_path : String) : Option (List PathPart) :=
  let clean := String.mk (stripSlashes uri_path.data)
  let segments := if clean = "" then [] else (splitSlash clean.data).map String.mk
  parseLoop "" segments

/-- Observable events of a reconciliation run: remote lookups, confirmation
prompts, resource-creation calls, preflight-method creation calls (the call
to create_options_method with its cors type), the single leaf CORS
configuration call of the serverless variant, and the two log events that
terminate an aborted run.  A create event additionally records the cumulative
path of the node being created (the call itself passes parent id and path
part; the cumulative path is recorded so that claims can speak about which
node the call concerns). -/
inductive Ev where
  | find (path : String) (res : Option String)
  | prompt (segment : String)
  | create (parentId : Option String) (path : String) (pathPart : String) (res : Option String)
  | options (resourceId : String) (corsType : String)
  | corsCall (resourceId : String)
  | warnCancelled
  | errorCreate (segment : String)
deriving Repr, DecidableEq

/-- The remote resource listing: an association list from resource path to
resource id. -/
abbrev St := List (String × String)

/-- find_resource_by_path / get_root_resource_id: look up the first listed
resource whose path equals the target (none when absent). -/
def findRes (st : St) (path : String) : Option String :=
  (st.find? (fun pr => pr.1 == path)).map (fun pr => pr.2)

/-- Environment of remote/operator oracles for one interactive run: the
answer to the n-th confirmation prompt (true models the operator typing s),
and the outcome of the n-th create-resource call (the id assigned by the
remote system, or none for a failed call). -/
structure Env where
  confirm : Nat → Bool
  createResult : Nat → Option String

/-- Loop state of ensure_resources_exist between two segment iterations:
the remote listing, how many prompts and create calls happened so far, and
the parent_id and final_resource_id variables of the source. -/
structure Cont where
  st : St
  nPrompt : Nat
  nCreate : Nat
  parentId : Option String
  finalId : Option String
deriving Repr, DecidableEq

/-- One iteration of the loop of ensure_resources_exist for one path part:
look the cumulative path up; on a hit advance silently; on a miss prompt the
operator, and then either abort (returning None as the source does), or
create the node and immediately attach the default preflight method to it,
or abort on a failed creation call.  Returns the emitted events and either
the continuation state or the early-return value paired with the remote
state at that point. -/
def ensureStep (env : Env) (c : Cont) (part : PathPart) :
    List Ev × (Cont ⊕ (Option String × St)) :=
  match findRes c.st part.path with
  | some existingId =>
      ([Ev.find part.path (some existingId)],
       Sum.inl { c with parentId := some existingId, finalId := some existingId })
  | none =>
      if env.confirm c.nPrompt = false then
        ([Ev.find part.path none, Ev.prompt part.segment, Ev.warnCancelled],
         Sum.inr (none, c.st))
      else
        match env.createResult c.nCreate with
        | some newId =>
            ([Ev.find part.path none, Ev.prompt part.segment,
              Ev.create c.parentId part.path part.segment (some newId),
              Ev.options newId "DEFAULT"],
             Sum.inl { st := c.st ++ [(part.path, newId)],
                       nPrompt := c.nPrompt + 1, nCreate := c.nCreate + 1,
                       parentId := some newId, finalId := some newId })
        | none =>
            ([Ev.find part.path none, Ev.prompt part.segment,
              Ev.create c.parentId part.path part.segment none,
              Ev.errorCreate part.segment],
             Sum.inr (none, c.st))

/-- The segment loop of ensure_resources_exist: run ensureStep over the
parts, short-circuiting on an early return; when the parts are exhausted the
final_resource_id variable is returned. -/
def ensureLoop (env : Env) (c : Cont) : List PathPart → Option String × List Ev × St
  | [] => (c.finalId, [], c.st)
  | part :: rest =>
    match ensureStep env c part with
    | (evs, Sum.inl c₂) =>
        let out := ensureLoop env c₂ rest
        (out.1, evs ++ out.2.1, out.2.2)
    | (evs, Sum.inr r) => (r.1, evs, r.2)

/-- Run of the loop over a prefix of the parts that is expected to advance
normally: returns the emitted events and the continuation reached, or none
when the run aborted inside the prefix. -/
def ensurePrefix (env : Env) (c : Cont) : List PathPart → List Ev × Option Cont
  | [] => ([], some c)
  | part :: rest =>
    match ensureStep env c part with
    | (evs, Sum.inl c₂) =>
        let out := ensurePrefix env c₂ rest
        (evs ++ out.1, out.2)
    | (evs, Sum.inr _) => (evs, none)

/-- Initial loop state: parent_id and final_resource_id both start at the
root lookup result. -/
def mkCont (st : St) (root : Option String) : Cont := ⟨st, 0, 0, root, root⟩

/-- APIGatewayManager.ensure_resources_exist: parse the path (the outer none
models the parse exception propagating); with no segments return the root
lookup; otherwise run the segment loop from the root.  The result is the
returned value (None for cancellation or creation failure), the event trace,
and the final remote state. -/
def ensure_resources_exist (env : Env) (st : St) (uri_path : String) :
    Option (Option String × List Ev × St) :=
  match parse_uri_path uri_path with
  | none => none
  | some parts =>
    if parts.isEmpty then
      some (findRes st "/", [Ev.find "/" (findRes st "/")], st)
    else
      let root := findRes st "/"
      let out := ensureLoop env (mkCont st root) parts
      some (out.1, Ev.find "/" root :: out.2.1, out.2.2)

/-- Event classifiers used by the counting claims. -/
def isCreateEv : Ev → Bool
  | Ev.create _ _ _ _ => true
  | _ => false

/-- A creation call that succeeded (the remote system assigned an id). -/
def isCreateOkEv : Ev → Bool
  | Ev.create _ _ _ (some _) => true
  | _ => false

/-- A confirmation prompt event. -/
def isPromptEv : Ev → Bool
  | Ev.prompt _ => true
  | _ => false

/-- A preflight-method creation event. -/
def isOptionsEv : Ev → Bool
  | Ev.options _ _ => true
  | _ => false

/-- A leaf CORS configuration event of the serverless variant. -/
def isCorsEv : Ev → Bool
  | Ev.corsCall _ => true
  | _ => false

/-- The path/id pairs recorded by the successful creation calls of a trace,
in order. -/
def createdPairs : List Ev → St
  | [] => []
  | Ev.create _ path _ (some newId) :: rest => (path, newId) :: createdPairs rest
  | _ :: rest => createdPairs rest

/-- Every successful creation call in the trace is immediately followed by a
preflight-method creation call for the freshly created node with the DEFAULT
cors type, and preflight calls occur nowhere else. -/
def optionsPaired : List Ev → Bool
  | [] => true
  | Ev.create _ _ _ (some newId) :: Ev.options oid ct :: rest =>
      (oid == newId) && (ct == "DEFAULT") && optionsPaired rest
  | Ev.create _ _ _ (some _) :: _ => false
  | Ev.options _ _ :: _ => false
  | _ :: rest => optionsPaired rest

/-- When every cumulative path of the parts is present in the remote
listing, the loop only performs lookups: it emits one find event per part,
leaves the remote state untouched, and returns the id found for the last
part (the initial final_resource_id when there are no parts). -/
theorem ensureLoop_allFound (env : Env) (parts : List PathPart) :
    ∀ c : Cont, (∀ part ∈ parts, (findRes c.st part.path).isSome) →
    ensureLoop env c parts =
      (parts.foldl (fun _ part => findRes c.st part.path) c.finalId,
       parts.map (fun part => Ev.find part.path (findRes c.st part.path)),
       c.st) := by
  induction parts with
  | nil => intro c _; rfl
  | cons part rest ih =>
    intro c hall
    obtain ⟨existingId, hid⟩ :=
      Option.isSome_iff_exists.mp (hall part (by simp))
    have hrest : ∀ p ∈ rest,
        (findRes ({ c with parentId := some existingId,
                           finalId := some existingId } : Cont).st p.path).isSome := by
      intro p hp
      exact hall p (by simp [hp])
    simp only [ensureLoop, ensureStep, hid]
    rw [ih _ hrest]
    simp [hid]

/-- Folding the per-part lookup results over parts whose lookups all succeed
yields a present id whenever the initial accumulator is present. -/
theorem foldl_find_isSome (st : St) (parts : List PathPart) :
    ∀ init : Option String, init.isSome = true →
    (∀ part ∈ parts, (findRes st part.path).isSome) →
    (parts.foldl (fun _ part => findRes st part.path) init).isSome = true := by
  induction parts with
  | nil => intro init h _; simpa using h
  | cons part rest ih =>
    intro init _ hall
    simp only [List.foldl_cons]
    exact ih _ (hall part (by simp)) (fun p hp => hall p (by simp [hp]))

/-- C1: when the remote state already holds the API root and a node for
every cumulative prefix of the path, ensure_resources_exist performs zero
creation calls and zero confirmation prompts, leaves the remote state
unchanged, and two successive calls (under any two oracle environments,
since no prompt or creation is consulted) return the same leaf resource
id. -/
theorem c1_reconciliation_idempotent (env env' : Env) (st : St) (P : String)
    (parts : List PathPart) (rootId : String)
    (hparse : parse_uri_path P = some parts)
    (hroot : findRes st "/" = some rootId)
    (hall : ∀ part ∈ parts, (findRes st part.path).isSome) :
    ∃ leafId tr,
      ensure_resources_exist env st P = some (some leafId, tr, st) ∧
      ensure_resources_exist env' st P = some (some leafId, tr, st) ∧
      tr.countP isCreateEv = 0 ∧ tr.countP isPromptEv = 0 := by
  cases parts with
  | nil =>
    refine ⟨rootId, [Ev.find "/" (some rootId)], ?_, ?_, by rfl, by rfl⟩ <;>
      simp [ensure_resources_exist, hparse, hroot]
  | cons part rest =>
    have hfold :
        (((part :: rest).foldl
            (fun _ p => findRes st p.path) (some rootId))).isSome = true :=
      foldl_find_isSome st (part :: rest) (some rootId) rfl hall
    obtain ⟨leafId, hleaf⟩ := Option.isSome_iff_exists.mp hfold
    refine ⟨leafId,
      Ev.find "/" (some rootId) ::
        (part :: rest).map (fun p => Ev.find p.path (findRes st p.path)),
      ?_, ?_, ?_, ?_⟩
    · simp only [ensure_resources_exist, hparse, List.isEmpty_cons, if_false,
        Bool.false_eq_true, hroot]
      rw [ensureLoop_allFound env (part :: rest) (mkCont st (some rootId)) hall]
      simp [mkCont, hleaf]
    · simp only [ensure_resources_exist, hparse, List.isEmpty_cons, if_false,
        Bool.false_eq_true, hroot]
      rw [ensureLoop_allFound env' (part :: rest) (mkCont st (some rootId)) hall]
      simp [mkCont, hleaf]
    · rw [List.countP_eq_zero]
      intro ev hev
      simp only [List.mem_cons, List.mem_map] at hev
      rcases hev with h | ⟨p, _, h⟩ <;> subst h <;> simp [isCreateEv]
    · rw [List.countP_eq_zero]
      intro ev hev
      simp only [List.mem_cons, List.mem_map] at hev
      rcases hev with h | ⟨p, _, h⟩ <;> subst h <;> simp [isPromptEv]

/-- Witness for C1 at a concrete remote state holding the root and both
prefixes of the path a b. -/
theorem c1_witness :
    ∃ leafId tr,
      ensure_resources_exist ⟨fun _ => false, fun _ => none⟩
          [("/", "root"), ("/a", "a1"), ("/a/b", "b1")] "/a/b" =
        some (some leafId, tr, [("/", "root"), ("/a", "a1"), ("/a/b", "b1")]) ∧
      ensure_resources_exist ⟨fun _ => true, fun k => some (toString k)⟩
          [("/", "root"), ("/a", "a1"), ("/a/b", "b1")] "/a/b" =
        some (some leafId, tr, [("/", "root"), ("/a", "a1"), ("/a/b", "b1")]) ∧
      tr.countP isCreateEv = 0 ∧ tr.countP isPromptEv = 0 :=
  c1_reconciliation_idempotent
    ⟨fun _ => false, fun _ => none⟩ ⟨fun _ => true, fun k => some (toString k)⟩
    [("/", "root"), ("/a", "a1"), ("/a/b", "b1")] "/a/b"
    [⟨"/a", "a", false, none⟩, ⟨"/a/b", "b", false, none⟩] "root"
    (by decide) (by decide) (by decide)

/-- createdPairs distributes over trace concatenation. -/
theorem createdPairs_append (a b : List Ev) :
    createdPairs (a ++ b) = createdPairs a ++ createdPairs b := by
  induction a with
  | nil => rfl
  | cons ev rest ih =>
    cases ev with
    | create parentId path pathPart res =>
      cases res <;> simp [createdPairs, ih]
    | find path res => simp [createdPairs, ih]
    | prompt s => simp [createdPairs, ih]
    | options i ct => simp [createdPairs, ih]
    | corsCall i => simp [createdPairs, ih]
    | warnCancelled => simp [createdPairs, ih]
    | errorCreate s => simp [createdPairs, ih]

/-- A loop iteration that continues normally extends the remote state by
exactly the pairs of its successful creation calls. -/
theorem ensureStep_inl_state (env : Env) (c : Cont) (part : PathPart)
    (evs : List Ev) (c₂ : Cont)
    (h : ensureStep env c part = (evs, Sum.inl c₂)) :
    c₂.st = c.st ++ createdPairs evs := by
  unfold ensureStep at h
  cases hfind : findRes c.st part.path with
  | some existingId =>
    rw [hfind] at h
    injection h with h1 h2
    injection h2 with h3
    subst h1
    subst h3
    simp [createdPairs]
  | none =>
    rw [hfind] at h
    by_cases hcf : env.confirm c.nPrompt = false
    · rw [if_pos hcf] at h
      injection h with h1 h2
      exact Sum.noConfusion h2
    · rw [if_neg hcf] at h
      cases hcr : env.createResult c.nCreate with
      | some newId =>
        rw [hcr] at h
        injection h with h1 h2
        injection h2 with h3
        subst h1
        subst h3
        simp [createdPairs]
      | none =>
        rw [hcr] at h
        injection h with h1 h2
        exact Sum.noConfusion h2

/-- If the loop advances normally through a prefix of the parts, running it
on the concatenation continues from the continuation the prefix reached,
with the prefix trace in front. -/
theorem ensureLoop_append (env : Env) (pre : List PathPart) :
    ∀ (c c₂ : Cont) (trPre : List Ev) (rest : List PathPart),
    ensurePrefix env c pre = (trPre, some c₂) →
    ensureLoop env c (pre ++ rest) =
      ((ensureLoop env c₂ rest).1,
       trPre ++ (ensureLoop env c₂ rest).2.1,
       (ensureLoop env c₂ rest).2.2) := by
  induction pre with
  | nil =>
    intro c c₂ trPre rest h
    simp only [ensurePrefix] at h
    obtain ⟨h1, h2⟩ := Prod.mk.injEq .. ▸ h
    cases h2
    subst h1
    simp
  | cons part pre ih =>
    intro c c₂ trPre rest h
    simp only [ensurePrefix] at h
    cases hstep : ensureStep env c part with
    | mk evs out =>
      rw [hstep] at h
      cases out with
      | inl c₃ =>
        simp only [] at h
        cases hpre : ensurePrefix env c₃ pre with
        | mk tr₃ o =>
          rw [hpre] at h
          simp only [Prod.mk.injEq] at h
          obtain ⟨h1, h2⟩ := h
          cases h2
          subst h1
          simp only [List.cons_append, ensureLoop, hstep, List.append_eq]
          rw [ih c₃ c₂ tr₃ rest hpre]
          simp [List.append_assoc]
      | inr r =>
        simp only [] at h
        simp only [Prod.mk.injEq] at h
        exact absurd h.2 (by simp)

/-- A normally advancing prefix run grows the remote state by exactly the
pairs of its successful creation calls, appended in order. -/
theorem ensurePrefix_state (env : Env) (pre : List PathPart) :
    ∀ (c c₂ : Cont) (trPre : List Ev),
    ensurePrefix env c pre = (trPre, some c₂) →
    c₂.st = c.st ++ createdPairs trPre := by
  induction pre with
  | nil =>
    intro c c₂ trPre h
    simp only [ensurePrefix, Prod.mk.injEq] at h
    obtain ⟨h1, h2⟩ := h
    cases h2
    subst h1
    simp [createdPairs]
  | cons part pre ih =>
    intro c c₂ trPre h
    simp only [ensurePrefix] at h
    cases hstep : ensureStep env c part with
    | mk evs out =>
      rw [hstep] at h
      cases out with
      | inl c₃ =>
        simp only [] at h
        cases hpre : ensurePrefix env c₃ pre with
        | mk tr₃ o =>
          rw [hpre] at h
          simp only [Prod.mk.injEq] at h
          obtain ⟨h1, h2⟩ := h
          cases h2
          subst h1
          rw [ih c₃ c₂ tr₃ hpre, ensureStep_inl_state env c part evs c₃ hstep,
              createdPairs_append, List.append_assoc]
      | inr r =>
        simp only [] at h
        simp only [Prod.mk.injEq] at h
        exact absurd h.2 (by simp)

/-- C2: when the reconciler reaches the k-th segment with the remote node
missing and the operator declines that prompt, the run returns None
immediately with the cancellation warning as its last event, no creation
call is issued for the k-th segment or any later one (the trace ends at the
warning), and the final remote state is exactly the initial state plus every
node created for the earlier segments of the same run — no rollback. -/
theorem c2_cancellation_prefix_abort (env : Env) (st : St) (P : String)
    (rootId : String) (pre : List PathPart) (pk : PathPart)
    (post : List PathPart) (trPre : List Ev) (c₁ : Cont)
    (hparse : parse_uri_path P = some (pre ++ pk :: post))
    (hroot : findRes st "/" = some rootId)
    (hpre : ensurePrefix env (mkCont st (some rootId)) pre = (trPre, some c₁))
    (hmiss : findRes c₁.st pk.path = none)
    (hdecl : env.confirm c₁.nPrompt = false) :
    ensure_resources_exist env st P =
      some (none,
        Ev.find "/" (some rootId) ::
          (trPre ++ [Ev.find pk.path none, Ev.prompt pk.segment, Ev.warnCancelled]),
        c₁.st) ∧
    ([Ev.find pk.path none, Ev.prompt pk.segment,
        Ev.warnCancelled] : List Ev).countP isCreateEv = 0 ∧
    c₁.st = st ++ createdPairs trPre := by
  have hne : (pre ++ pk :: post).isEmpty = false := by
    cases pre <;> rfl
  have htail : ensureLoop env c₁ (pk :: post) =
      (none, [Ev.find pk.path none, Ev.prompt pk.segment, Ev.warnCancelled], c₁.st) := by
    simp [ensureLoop, ensureStep, hmiss, hdecl]
  refine ⟨?_, rfl, ?_⟩
  · simp only [ensure_resources_exist, hparse, hne, Bool.false_eq_true,
      if_false, hroot]
    rw [ensureLoop_append env pre (mkCont st (some rootId)) c₁ trPre (pk :: post) hpre]
    rw [htail]
  · simpa [mkCont] using ensurePrefix_state env pre (mkCont st (some rootId)) c₁ trPre hpre

/-- Witness for C2: remote state holds the root and the node a; the run
declines the prompt for the missing node b of the path a b c. -/
theorem c2_witness :
    ensure_resources_exist ⟨fun _ => false, fun _ => none⟩
        [("/", "root"), ("/a", "a1")] "/a/b/c" =
      some (none,
        Ev.find "/" (some "root") ::
          ([Ev.find "/a" (some "a1")] ++
            [Ev.find "/a/b" none, Ev.prompt "b", Ev.warnCancelled]),
        (⟨[("/", "root"), ("/a", "a1")], 0, 0, some "a1", some "a1"⟩ : Cont).st) ∧
    ([Ev.find "/a/b" none, Ev.prompt "b",
        Ev.warnCancelled] : List Ev).countP isCreateEv = 0 ∧
    (⟨[("/", "root"), ("/a", "a1")], 0, 0, some "a1", some "a1"⟩ : Cont).st =
      [("/", "root"), ("/a", "a1")] ++ createdPairs [Ev.find "/a" (some "a1")] :=
  c2_cancellation_prefix_abort ⟨fun _ => false, fun _ => none⟩
    [("/", "root"), ("/a", "a1")] "/a/b/c" "root"
    [⟨"/a", "a", false, none⟩] ⟨"/a/b", "b", false, none⟩
    [⟨"/a/b/c", "c", false, none⟩]
    [Ev.find "/a" (some "a1")]
    ⟨[("/", "root"), ("/a", "a1")], 0, 0, some "a1", some "a1"⟩
    (by decide) (by decide) (by decide) (by decide) (by decide)

/-- Exhaustive enumeration of the four behaviours of one loop iteration:
skip of an existing node, declined prompt, successful creation followed
immediately by the default preflight attachment, and failed creation. -/
theorem ensureStep_cases (env : Env) (c : Cont) (part : PathPart) :
    (∃ existingId, findRes c.st part.path = some existingId ∧
      ensureStep env c part = ([Ev.find part.path (some existingId)],
        Sum.inl { c with parentId := some existingId, finalId := some existingId })) ∨
    (findRes c.st part.path = none ∧ env.confirm c.nPrompt = false ∧
      ensureStep env c part =
        ([Ev.find part.path none, Ev.prompt part.segment, Ev.warnCancelled],
         Sum.inr (none, c.st))) ∨
    (∃ newId, findRes c.st part.path = none ∧ env.confirm c.nPrompt = true ∧
      env.createResult c.nCreate = some newId ∧
      ensureStep env c part =
        ([Ev.find part.path none, Ev.prompt part.segment,
          Ev.create c.parentId part.path part.segment (some newId),
          Ev.options newId "DEFAULT"],
         Sum.inl ⟨c.st ++ [(part.path, newId)], c.nPrompt + 1, c.nCreate + 1,
                  some newId, some newId⟩)) ∨
    (findRes c.st part.path = none ∧ env.confirm c.nPrompt = true ∧
      env.createResult c.nCreate = none ∧
      ensureStep env c part =
        ([Ev.find part.path none, Ev.prompt part.segment,
          Ev.create c.parentId part.path part.segment none,
          Ev.errorCreate part.segment],
         Sum.inr (none, c.st))) := by
  cases hfind : findRes c.st part.path with
  | some existingId =>
    exact Or.inl ⟨existingId, rfl, by simp [ensureStep, hfind]⟩
  | none =>
    by_cases hcf : env.confirm c.nPrompt = false
    · exact Or.inr (Or.inl ⟨rfl, hcf, by simp [ensureStep, hfind, hcf]⟩)
    · have hct : env.confirm c.nPrompt = true := by
        cases hv : env.confirm c.nPrompt
        · exact absurd hv hcf
        · rfl
      cases hcr : env.createResult c.nCreate with
      | some newId =>
        refine Or.inr (Or.inr (Or.inl ⟨newId, rfl, hct, rfl, ?_⟩))
        simp [ensureStep, hfind, hcf, hcr]
      | none =>
        refine Or.inr (Or.inr (Or.inr ⟨rfl, hct, rfl, ?_⟩))
        simp [ensureStep, hfind, hcf, hcr]

/-- Events that are not successful creations and not preflight attachments
pass through the pairing predicate. -/
theorem optionsPaired_cons_find (p : String) (r : Option String) (tr : List Ev) :
    optionsPaired (Ev.find p r :: tr) = optionsPaired tr := rfl

/-- A prompt passes through the pairing predicate. -/
theorem optionsPaired_cons_prompt (s : String) (tr : List Ev) :
    optionsPaired (Ev.prompt s :: tr) = optionsPaired tr := rfl

/-- A successful creation immediately followed by its default preflight
attachment passes through the pairing predicate. -/
theorem optionsPaired_create_options (p pp : String) (pid : Option String)
    (newId : String) (tr : List Ev) :
    optionsPaired (Ev.create pid p pp (some newId) ::
      Ev.options newId "DEFAULT" :: tr) = optionsPaired tr := by
  simp [optionsPaired]

/-- The segment loop satisfies the preflight invariant: every successful
creation call is immediately followed by exactly one preflight attachment
with the DEFAULT cors type, preflight attachments occur nowhere else, and
their count equals the count of successful creations. -/
theorem ensureLoop_preflight (env : Env) (parts : List PathPart) :
    ∀ c : Cont,
    optionsPaired (ensureLoop env c parts).2.1 = true ∧
    (ensureLoop env c parts).2.1.countP isOptionsEv =
      (ensureLoop env c parts).2.1.countP isCreateOkEv ∧
    (∀ rid ct, Ev.options rid ct ∈ (ensureLoop env c parts).2.1 →
      ct = "DEFAULT") := by
  induction parts with
  | nil =>
    intro c
    refine ⟨rfl, rfl, ?_⟩
    intro rid ct h
    simp [ensureLoop] at h
  | cons part rest ih =>
    intro c
    rcases ensureStep_cases env c part with
      ⟨existingId, hfind, hstep⟩ | ⟨hfind, hconf, hstep⟩ |
      ⟨newId, hfind, hconf, hcr, hstep⟩ | ⟨hfind, hconf, hcr, hstep⟩
    · obtain ⟨ih1, ih2, ih3⟩ :=
        ih { c with parentId := some existingId, finalId := some existingId }
      simp only [ensureLoop, hstep]
      refine ⟨?_, ?_, ?_⟩
      · simpa [optionsPaired_cons_find] using ih1
      · simpa [List.countP_cons, isOptionsEv, isCreateOkEv] using ih2
      · intro rid ct h
        simp only [List.cons_append, List.nil_append, List.mem_cons] at h
        rcases h with h | h
        · exact absurd h (by simp)
        · exact ih3 rid ct h
    · simp only [ensureLoop, hstep]
      refine ⟨rfl, rfl, ?_⟩
      intro rid ct h
      simp only [List.mem_cons] at h
      rcases h with h | h | h | h <;> simp_all
    · obtain ⟨ih1, ih2, ih3⟩ :=
        ih ⟨c.st ++ [(part.path, newId)], c.nPrompt + 1, c.nCreate + 1,
            some newId, some newId⟩
      simp only [ensureLoop, hstep]
      refine ⟨?_, ?_, ?_⟩
      · simpa [optionsPaired_cons_find, optionsPaired_cons_prompt,
          optionsPaired_create_options] using ih1
      · simpa [List.countP_cons, isOptionsEv, isCreateOkEv] using ih2
      · intro rid ct h
        simp only [List.cons_append, List.nil_append, List.mem_cons] at h
        rcases h with h | h | h | h | h
        · exact absurd h (by simp)
        · exact absurd h (by simp)
        · exact absurd h (by simp)
        · cases h
          rfl
        · exact ih3 rid ct h
    · simp only [ensureLoop, hstep]
      refine ⟨rfl, rfl, ?_⟩
      intro rid ct h
      simp only [List.mem_cons] at h
      rcases h with h | h | h | h | h <;> simp_all

/-- C3: in every completed reconciliation run, each freshly created node
receives exactly one preflight-method creation call, issued immediately
after the node's creation and before the next segment is processed, always
with the system DEFAULT cross-origin policy; segments found to exist
trigger no preflight call (preflight events appear only right after
successful creations, and their count equals the successful-creation
count). -/
theorem c3_preflight_invariant (env : Env) (st : St) (P : String)
    (r : Option String) (tr : List Ev) (st' : St)
    (h : ensure_resources_exist env st P = some (r, tr, st')) :
    optionsPaired tr = true ∧
    tr.countP isOptionsEv = tr.countP isCreateOkEv ∧
    (∀ rid ct, Ev.options rid ct ∈ tr → ct = "DEFAULT") := by
  unfold ensure_resources_exist at h
  cases hparse : parse_uri_path P with
  | none => rw [hparse] at h; exact absurd h (by simp)
  | some parts =>
    rw [hparse] at h
    simp only [] at h
    cases hemp : parts.isEmpty with
    | true =>
      rw [hemp, if_pos rfl] at h
      injection h with h1
      obtain ⟨hr, h2⟩ := Prod.mk.injEq .. ▸ h1
      obtain ⟨htr, hst⟩ := Prod.mk.injEq .. ▸ h2
      subst htr
      refine ⟨rfl, rfl, ?_⟩
      intro rid ct hm
      simp at hm
    | false =>
      rw [hemp] at h
      simp only [Bool.false_eq_true, if_false] at h
      injection h with h1
      obtain ⟨hr, h2⟩ := Prod.mk.injEq .. ▸ h1
      obtain ⟨htr, hst⟩ := Prod.mk.injEq .. ▸ h2
      subst htr
      obtain ⟨l1, l2, l3⟩ :=
        ensureLoop_preflight env parts (mkCont st (findRes st "/"))
      refine ⟨?_, ?_, ?_⟩
      · simpa [optionsPaired_cons_find] using l1
      · simpa [List.countP_cons, isOptionsEv, isCreateOkEv] using l2
      · intro rid ct hm
        simp only [List.mem_cons] at hm
        rcases hm with hm | hm
        · exact absurd hm (by simp)
        · exact l3 rid ct hm

/-- Witness for C3 at a run that creates two nodes under an always-confirm
environment. -/
theorem c3_witness :
    optionsPaired [Ev.find "/" (some "root"),
      Ev.find "/a" none, Ev.prompt "a",
      Ev.create (some "root") "/a" "a" (some "n0"), Ev.options "n0" "DEFAULT",
      Ev.find "/a/b" none, Ev.prompt "b",
      Ev.create (some "n0") "/a/b" "b" (some "n1"),
      Ev.options "n1" "DEFAULT"] = true ∧
    ([Ev.find "/" (some "root"),
      Ev.find "/a" none, Ev.prompt "a",
      Ev.create (some "root") "/a" "a" (some "n0"), Ev.options "n0" "DEFAULT",
      Ev.find "/a/b" none, Ev.prompt "b",
      Ev.create (some "n0") "/a/b" "b" (some "n1"),
      Ev.options "n1" "DEFAULT"] : List Ev).countP isOptionsEv =
    ([Ev.find "/" (some "root"),
      Ev.find "/a" none, Ev.prompt "a",
      Ev.create (some "root") "/a" "a" (some "n0"), Ev.options "n0" "DEFAULT",
      Ev.find "/a/b" none, Ev.prompt "b",
      Ev.create (some "n0") "/a/b" "b" (some "n1"),
      Ev.options "n1" "DEFAULT"] : List Ev).countP isCreateOkEv ∧
    (∀ rid ct, Ev.options rid ct ∈ ([Ev.find "/" (some "root"),
      Ev.find "/a" none, Ev.prompt "a",
      Ev.create (some "root") "/a" "a" (some "n0"), Ev.options "n0" "DEFAULT",
      Ev.find "/a/b" none, Ev.prompt "b",
      Ev.create (some "n0") "/a/b" "b" (some "n1"),
      Ev.options "n1" "DEFAULT"] : List Ev) → ct = "DEFAULT") :=
  c3_preflight_invariant
    ⟨fun _ => true, fun k => some ("n" ++ toString k)⟩
    [("/", "root")] "/a/b" (some "n1")
    [Ev.find "/" (some "root"),
      Ev.find "/a" none, Ev.prompt "a",
      Ev.create (some "root") "/a" "a" (some "n0"), Ev.options "n0" "DEFAULT",
      Ev.find "/a/b" none, Ev.prompt "b",
      Ev.create (some "n0") "/a/b" "b" (some "n1"),
      Ev.options "n1" "DEFAULT"]
    [("/", "root"), ("/a", "n0"), ("/a/b", "n1")]
    (by decide)

/-- Raw segment values joined by slashes, with no leading separator — the
joining operation named by the cumulative-path invariant. -/
def joinSegs : List String → String
  | [] => ""
  | [s] => s
  | s :: rest => s ++ "/" ++ joinSegs rest

/-- A well-formed raw segment: non-empty, slash-free, and — when it contains
both braces — containing at least one brace-enclosed identifier (so that the
parser's unguarded first-capture access cannot raise). -/
def goodSegB (s : String) : Bool :=
  (s != "") && s.data.all (fun c => c != '/') &&
  (!(containsChar s '{' && containsChar s '}') ||
    !(findBraceTokens s.data).isEmpty)

/-- The parts parse_uri_path builds for a list of well-formed segments,
carrying the cumulative path accumulated so far. -/
def expectedParts (acc : String) : List String → List PathPart
  | [] => []
  | seg :: rest =>
    ⟨acc ++ "/" ++ seg, seg,
     containsChar seg '{' && containsChar seg '}',
     if containsChar seg '{' && containsChar seg '}' then
       ((findBraceTokens seg.data).head?).map (fun w => String.mk w)
     else none⟩ :: expectedParts (acc ++ "/" ++ seg) rest

/-- Splitting a slash-free character list gives that list as the single
field. -/
theorem splitSlash_no_slash (l : List Char) (h : ∀ c ∈ l, c ≠ '/') :
    splitSlash l = [l] := by
  induction l with
  | nil => rfl
  | cons c rest ih =>
    have hc : ¬(c = '/') := h c (by simp)
    have hrest := ih (fun x hx => h x (by simp [hx]))
    simp [splitSlash, hc, hrest]

/-- Splitting peels a slash-free chunk before a slash off as one field. -/
theorem splitSlash_append_slash (a r : List Char) (h : ∀ c ∈ a, c ≠ '/') :
    splitSlash (a ++ '/' :: r) = a :: splitSlash r := by
  induction a with
  | nil => simp [splitSlash]
  | cons c a ih =>
    have hc : ¬(c = '/') := h c (by simp)
    have ha := ih (fun x hx => h x (by simp [hx]))
    simp [splitSlash, hc, ha]

/-- Dropping under a predicate that rejects the head leaves the list
unchanged. -/
theorem dropWhile_eq_self_of_head (p : Char → Bool) (l : List Char)
    (h : ∀ c, l.head? = some c → p c = false) : l.dropWhile p = l := by
  cases l with
  | nil => rfl
  | cons c r => simp [List.dropWhile_cons, h c rfl]

/-- Stripping slashes from a list whose first and last characters are not
slashes changes nothing. -/
theorem stripSlashes_eq_self (l : List Char)
    (h1 : ∀ c, l.head? = some c → c ≠ '/')
    (h2 : ∀ c, l.getLast? = some c → c ≠ '/') : stripSlashes l = l := by
  unfold stripSlashes
  rw [dropWhile_eq_self_of_head _ l (fun c hc => by simp [h1 c hc])]
  rw [dropWhile_eq_self_of_head _ l.reverse
    (fun c hc => by
      rw [List.head?_reverse] at hc
      simp [h2 c hc])]
  exact List.reverse_reverse l

/-- Stripping slashes from a single leading slash followed by a slash-free
boundary leaves the remainder. -/
theorem stripSlashes_slash_cons (X : List Char)
    (h1 : ∀ c, X.head? = some c → c ≠ '/')
    (h2 : ∀ c, X.getLast? = some c → c ≠ '/') :
    stripSlashes ('/' :: X) = X := by
  unfold stripSlashes
  rw [List.dropWhile_cons]
  simp only [decide_eq_true_eq, if_pos rfl, if_true]
  rw [dropWhile_eq_self_of_head _ X (fun c hc => by simp [h1 c hc])]
  rw [dropWhile_eq_self_of_head _ X.reverse
    (fun c hc => by
      rw [List.head?_reverse] at hc
      simp [h2 c hc])]
  exact List.reverse_reverse X

/-- Character-level view of joining a segment onto a nonempty remainder. -/
theorem joinSegs_data_cons (s : String) (rest : List String) (h : rest ≠ []) :
    (joinSegs (s :: rest)).data = s.data ++ '/' :: (joinSegs rest).data := by
  cases rest with
  | nil => exact absurd rfl h
  | cons r rs =>
    show (s ++ "/" ++ joinSegs (r :: rs)).data = _
    rw [String.data_append, String.data_append]
    simp

/-- The characters of a join of slash-free segments start with the first
segment's characters. -/
theorem joinSegs_head (s : String) (rest : List String) (hs : s.data ≠ []) :
    (joinSegs (s :: rest)).data.head? = s.data.head? := by
  cases rest with
  | nil => rfl
  | cons r rs =>
    rw [joinSegs_data_cons s (r :: rs) (by simp)]
    exact List.head?_append_of_ne_nil _ hs

/-- No character of a well-formed segment is a slash. -/
theorem goodSeg_no_slash (s : String) (h : goodSegB s = true) :
    ∀ c ∈ s.data, c ≠ '/' := by
  intro c hc
  have h2 := (Bool.and_eq_true .. ▸ (Bool.and_eq_true .. ▸ h).1).2
  rw [List.all_eq_true] at h2
  simpa using h2 c hc

/-- A well-formed segment has characters. -/
theorem goodSeg_ne_nil (s : String) (h : goodSegB s = true) : s.data ≠ [] := by
  have h1 := (Bool.and_eq_true .. ▸ (Bool.and_eq_true .. ▸ h).1).1
  intro hd
  have : s = "" := String.ext hd
  subst this
  simp at h1

/-- The join of nonempty segments has characters. -/
theorem joinSegs_data_ne_nil (s : String) (rest : List String)
    (hs : s.data ≠ []) : (joinSegs (s :: rest)).data ≠ [] := by
  intro hnil
  have := joinSegs_head s rest hs
  rw [hnil] at this
  cases hr : (String.data s) with
  | nil => exact hs hr
  | cons a b => rw [hr] at this; simp at this

/-- The join of nonempty slash-free segments neither starts nor ends with a
slash. -/
theorem joinSegs_boundary (segs : List String) :
    segs ≠ [] → (∀ s ∈ segs, s.data ≠ [] ∧ ∀ c ∈ s.data, c ≠ '/') →
    (∀ c, (joinSegs segs).data.head? = some c → c ≠ '/') ∧
    (∀ c, (joinSegs segs).data.getLast? = some c → c ≠ '/') := by
  induction segs with
  | nil => intro h; exact absurd rfl h
  | cons s rest ih =>
    intro _ hgood
    have hs := hgood s (by simp)
    constructor
    · intro c hc
      rw [joinSegs_head s rest hs.1] at hc
      exact hs.2 c (List.mem_of_mem_head? (by simp [hc]))
    · intro c hc
      cases rest with
      | nil =>
        exact hs.2 c (List.mem_of_mem_getLast? (by simpa using hc))
      | cons r rs =>
        have hrs := ih (by simp) (fun x hx => hgood x (by simp [hx]))
        rw [joinSegs_data_cons s (r :: rs) (by simp)] at hc
        have hJ : (joinSegs (r :: rs)).data ≠ [] :=
          joinSegs_data_ne_nil r rs (hgood r (by simp)).1
        rw [show s.data ++ '/' :: (joinSegs (r :: rs)).data =
              (s.data ++ ['/']) ++ (joinSegs (r :: rs)).data by simp] at hc
        rw [List.getLast?_append_of_ne_nil _ hJ] at hc
        exact hrs.2 c hc

/-- Splitting the join of slash-free segments recovers the segments. -/
theorem splitSlash_join (segs : List String) :
    segs ≠ [] → (∀ s ∈ segs, ∀ c ∈ s.data, c ≠ '/') →
    splitSlash (joinSegs segs).data = segs.map String.data := by
  induction segs with
  | nil => intro h; exact absurd rfl h
  | cons s rest ih =>
    intro _ hgood
    have hs := hgood s (by simp)
    cases rest with
    | nil =>
      show splitSlash s.data = [s.data]
      exact splitSlash_no_slash s.data hs
    | cons r rs =>
      rw [joinSegs_data_cons s (r :: rs) (by simp)]
      rw [splitSlash_append_slash s.data _ hs]
      rw [ih (by simp) (fun x hx => hgood x (by simp [hx]))]
      rfl

/-- Rebuilding strings from their characters is the identity on a list of
strings. -/
theorem map_mk_map_data (l : List String) :
    (l.map String.data).map String.mk = l := by
  induction l with
  | nil => rfl
  | cons x xs ih => simp only [List.map_cons, ih]

/-- On a well-formed path — a leading slash followed by well-formed
segments joined by slashes — parse_uri_path reduces to the segment loop on
exactly those segments. -/
theorem parse_uri_path_join (segs : List String)
    (hgood : ∀ s ∈ segs, goodSegB s = true) :
    parse_uri_path ("/" ++ joinSegs segs) = parseLoop "" segs := by
  cases hsegs : segs with
  | nil =>
    show parse_uri_path ("/" ++ "") = _
    rfl
  | cons s rest =>
    subst hsegs
    have hbound := joinSegs_boundary (s :: rest) (by simp)
      (fun x hx => ⟨goodSeg_ne_nil x (hgood x hx), goodSeg_no_slash x (hgood x hx)⟩)
    have hdata : ("/" ++ joinSegs (s :: rest)).data =
        '/' :: (joinSegs (s :: rest)).data := by
      rw [String.data_append]; rfl
    have hJne : (joinSegs (s :: rest)).data ≠ [] :=
      joinSegs_data_ne_nil s rest (goodSeg_ne_nil s (hgood s (by simp)))
    have hclean : String.mk (joinSegs (s :: rest)).data ≠ "" := by
      intro he
      exact hJne (congrArg String.data he)
    have hstrip : stripSlashes ("/" ++ joinSegs (s :: rest)).data =
        (joinSegs (s :: rest)).data := by
      rw [hdata]
      exact stripSlashes_slash_cons _ hbound.1 hbound.2
    simp only [parse_uri_path, hstrip, if_neg hclean]
    rw [show (String.mk (joinSegs (s :: rest)).data).data =
          (joinSegs (s :: rest)).data from rfl]
    rw [splitSlash_join (s :: rest) (by simp)
      (fun x hx => goodSeg_no_slash x (hgood x hx)), map_mk_map_data]

/-- Character-level view of prefixing a string with a slash. -/
theorem slash_append_data (s : String) : ("/" ++ s).data = '/' :: s.data := by
  rw [String.data_append]
  rfl

/-- Joining onto a nonempty remainder prepends the segment and a slash. -/
theorem joinSegs_cons_of_ne (s : String) (rest : List String) (h : rest ≠ []) :
    joinSegs (s :: rest) = s ++ "/" ++ joinSegs rest := by
  cases rest with
  | nil => exact absurd rfl h
  | cons r rs => rfl

/-- On well-formed segments the parse loop cannot raise and produces
exactly the expected parts. -/
theorem parseLoop_eq_expected : ∀ (segs : List String),
    (∀ s ∈ segs, goodSegB s = true) →
    ∀ acc, parseLoop acc segs = some (expectedParts acc segs) := by
  intro segs
  induction segs with
  | nil => intro _ acc; rfl
  | cons seg rest ih =>
    intro hgood acc
    have hseg := hgood seg (by simp)
    have ihr := ih (fun x hx => hgood x (by simp [hx])) (acc ++ "/" ++ seg)
    by_cases hb : (containsChar seg '{' && containsChar seg '}') = true
    · have hfb : findBraceTokens seg.data ≠ [] := by
        have h3 := (Bool.and_eq_true .. ▸ hseg).2
        rw [Bool.or_eq_true] at h3
        rcases h3 with h3 | h3
        · rw [Bool.not_eq_true'] at h3
          rw [h3] at hb
          simp at hb
        · simpa [List.isEmpty_iff] using h3
      cases hfbt : findBraceTokens seg.data with
      | nil => exact absurd hfbt hfb
      | cons w ws =>
        simp only [parseLoop, hb, if_true, hfbt, ihr, Option.map_some]
        simp [expectedParts, hb, hfbt]
    · simp only [parseLoop, hb, if_false, ihr, Option.map_some]
      simp [expectedParts, hb]

/-- The expected parts are in bijection with the segments. -/
theorem expectedParts_length : ∀ (segs : List String) (acc : String),
    (expectedParts acc segs).length = segs.length := by
  intro segs
  induction segs with
  | nil => intro acc; rfl
  | cons s rest ih => intro acc; simp [expectedParts, ih]

/-- The raw text of each expected part is the corresponding segment, in
order. -/
theorem expectedParts_map_segment : ∀ (segs : List String) (acc : String),
    (expectedParts acc segs).map (fun part => part.segment) = segs := by
  intro segs
  induction segs with
  | nil => intro acc; rfl
  | cons s rest ih => intro acc; simp [expectedParts, ih]

/-- The i-th expected part's cumulative path is the accumulator followed by
the first i plus one segments joined by slashes. -/
theorem expectedParts_get_path : ∀ (segs : List String) (acc : String) (i : Nat)
    (hi : i < (expectedParts acc segs).length),
    ((expectedParts acc segs).get ⟨i, hi⟩).path =
      acc ++ "/" ++ joinSegs (segs.take (i + 1)) := by
  intro segs
  induction segs with
  | nil => intro acc i hi; simp [expectedParts] at hi
  | cons seg rest ih =>
    intro acc i hi
    cases i with
    | zero => simp [expectedParts, joinSegs]
    | succ j =>
      have hj : j < (expectedParts (acc ++ "/" ++ seg) rest).length := by
        simpa [expectedParts] using hi
      rw [show (expectedParts acc (seg :: rest)).get ⟨j + 1, hi⟩ =
            (expectedParts (acc ++ "/" ++ seg) rest).get ⟨j, hj⟩ from rfl]
      rw [ih (acc ++ "/" ++ seg) j hj]
      have hrne : rest ≠ [] := by
        intro h0
        subst h0
        simp [expectedParts] at hj
      have hrtake : rest.take (j + 1) ≠ [] := by
        cases rest with
        | nil => exact absurd rfl hrne
        | cons a b => simp [List.take]
      rw [show (seg :: rest).take (j + 1 + 1) = seg :: rest.take (j + 1) from rfl]
      rw [joinSegs_cons_of_ne seg (rest.take (j + 1)) hrtake]
      simp [String.append_assoc]

/-- The join of a one-longer take is extended by the join of the full
list. -/
theorem joinSegs_take_prefix : ∀ (segs : List String) (k : Nat),
    (joinSegs (segs.take (k + 1))).data <+: (joinSegs segs).data := by
  intro segs
  induction segs with
  | nil => intro k; simp [joinSegs]
  | cons seg rest ih =>
    intro k
    cases k with
    | zero =>
      cases rest with
      | nil => simp [joinSegs]
      | cons r rs =>
        rw [show (seg :: r :: rs).take 1 = [seg] from rfl]
        rw [joinSegs_data_cons seg (r :: rs) (by simp)]
        exact ⟨'/' :: (joinSegs (r :: rs)).data, rfl⟩
    | succ j =>
      cases rest with
      | nil => simp [joinSegs]
      | cons r rs =>
        rw [show (seg :: r :: rs).take (j + 1 + 1) =
              seg :: (r :: rs).take (j + 1) from rfl]
        have htne : (r :: rs).take (j + 1) ≠ [] := by simp [List.take]
        rw [joinSegs_data_cons seg _ htne, joinSegs_data_cons seg (r :: rs) (by simp)]
        obtain ⟨t, ht⟩ := ih j
        simp only [List.take_succ_cons] at ht
        refine ⟨t, ?_⟩
        rw [List.append_assoc]
        simp [ht]

/-- Consecutive expected parts have strictly growing cumulative paths, each
a strict prefix of the next. -/
theorem expectedParts_chain : ∀ (segs : List String) (acc : String),
    List.Chain' (fun a b => a.path.data <+: b.path.data ∧
      a.path.data.length < b.path.data.length) (expectedParts acc segs) := by
  intro segs
  induction segs with
  | nil => intro acc; simp [expectedParts]
  | cons seg rest ih =>
    intro acc
    rw [show expectedParts acc (seg :: rest) =
          (⟨acc ++ "/" ++ seg, seg,
            containsChar seg '{' && containsChar seg '}',
            if containsChar seg '{' && containsChar seg '}' then
              ((findBraceTokens seg.data).head?).map (fun w => String.mk w)
            else none⟩ : PathPart) ::
          expectedParts (acc ++ "/" ++ seg) rest from rfl]
    rw [List.chain'_cons']
    refine ⟨?_, ih (acc ++ "/" ++ seg)⟩
    intro b hb
    cases rest with
    | nil => simp [expectedParts] at hb
    | cons r rs =>
      simp only [expectedParts, List.head?_cons, Option.mem_def,
        Option.some.injEq] at hb
      subst hb
      constructor
      · refine ⟨("/" ++ r).data, ?_⟩
        rw [← String.data_append, ← String.append_assoc]
      · rw [String.data_append, String.data_append]
        simp

/-- C4 (amended): for every path built as a single leading slash followed by
well-formed raw segments joined by slashes — non-empty, slash-free, and not
containing an ill-formed brace pair — the parser returns exactly one part
per segment in root-to-leaf order; the i-th cumulative path equals the
slash-prefixed join of segments zero through i; every cumulative path starts
with a slash and is a prefix of the full path; consecutive cumulative paths
strictly grow; and the empty and root paths parse to the empty sequence.
The original claim quantified over arbitrary paths, which fails already for
the path a with no leading slash. -/
theorem c4_parser_postcondition (segs : List String)
    (hgood : ∀ s ∈ segs, goodSegB s = true) :
    ∃ parts, parse_uri_path ("/" ++ joinSegs segs) = some parts ∧
      parts.length = segs.length ∧
      parts.map (fun part => part.segment) = segs ∧
      (∀ i (hi : i < parts.length),
        (parts.get ⟨i, hi⟩).path = "/" ++ joinSegs (segs.take (i + 1))) ∧
      (∀ part ∈ parts, part.path.data.head? = some '/') ∧
      (∀ part ∈ parts, part.path.data <+: ("/" ++ joinSegs segs).data) ∧
      List.Chain' (fun a b => a.path.data <+: b.path.data ∧
        a.path.data.length < b.path.data.length) parts ∧
      parse_uri_path "" = some [] ∧ parse_uri_path "/" = some [] := by
  have hget : ∀ i (hi : i < (expectedParts "" segs).length),
      ((expectedParts "" segs).get ⟨i, hi⟩).path =
        "/" ++ joinSegs (segs.take (i + 1)) := by
    intro i hi
    rw [expectedParts_get_path segs "" i hi, String.empty_append]
  refine ⟨expectedParts "" segs, ?_, expectedParts_length segs "",
    expectedParts_map_segment segs "", hget, ?_, ?_,
    expectedParts_chain segs "", rfl, rfl⟩
  · rw [parse_uri_path_join segs hgood]
    exact parseLoop_eq_expected segs hgood ""
  · intro part hp
    obtain ⟨⟨i, hi⟩, hip⟩ := List.mem_iff_get.mp hp
    rw [← hip, hget i hi, slash_append_data]
    rfl
  · intro part hp
    obtain ⟨⟨i, hi⟩, hip⟩ := List.mem_iff_get.mp hp
    rw [← hip, hget i hi, slash_append_data, slash_append_data]
    obtain ⟨t, ht⟩ := joinSegs_take_prefix segs i
    exact ⟨t, by simp [ht]⟩

/-- Counterexample to C4 as frozen: the path a has one non-empty segment,
but the single returned cumulative path /a is not a prefix of the input
path. -/
theorem c4_counterexample :
    parse_uri_path "a" = some [⟨"/a", "a", false, none⟩] ∧
    ¬ (("/a").data <+: ("a").data) := by decide

/-- Witness for C4 on the resource path of the specification's worked
example. -/
theorem c4_witness :
    ∃ parts, parse_uri_path
        ("/" ++ joinSegs ["v1", "invoices", "{invoiceId}"]) = some parts ∧
      parts.length = (["v1", "invoices", "{invoiceId}"] : List String).length ∧
      parts.map (fun part => part.segment) = ["v1", "invoices", "{invoiceId}"] ∧
      (∀ i (hi : i < parts.length),
        (parts.get ⟨i, hi⟩).path =
          "/" ++ joinSegs ((["v1", "invoices", "{invoiceId}"] : List String).take (i + 1))) ∧
      (∀ part ∈ parts, part.path.data.head? = some '/') ∧
      (∀ part ∈ parts, part.path.data <+:
        ("/" ++ joinSegs ["v1", "invoices", "{invoiceId}"]).data) ∧
      List.Chain' (fun a b => a.path.data <+: b.path.data ∧
        a.path.data.length < b.path.data.length) parts ∧
      parse_uri_path "" = some [] ∧ parse_uri_path "/" = some [] :=
  c4_parser_postcondition ["v1", "invoices", "{invoiceId}"] (by decide)

/-- Counterexample to C5 as frozen: against the same remote state and path,
a declined prompt and a failed creation call make ensure_resources_exist
return the very same value — None — so the two outcomes are not
distinguishable by the caller from the returned value; no
ResourceCreationError value is surfaced. -/
theorem c5_counterexample :
    ensure_resources_exist ⟨fun _ => false, fun _ => some "X"⟩
        [("/", "root")] "/a" =
      some (none, [Ev.find "/" (some "root"), Ev.find "/a" none,
        Ev.prompt "a", Ev.warnCancelled], [("/", "root")]) ∧
    ensure_resources_exist ⟨fun _ => true, fun _ => none⟩
        [("/", "root")] "/a" =
      some (none, [Ev.find "/" (some "root"), Ev.find "/a" none,
        Ev.prompt "a", Ev.create (some "root") "/a" "a" none,
        Ev.errorCreate "a"], [("/", "root")]) ∧
    (ensure_resources_exist ⟨fun _ => false, fun _ => some "X"⟩
        [("/", "root")] "/a").map (fun out => out.1) =
    (ensure_resources_exist ⟨fun _ => true, fun _ => none⟩
        [("/", "root")] "/a").map (fun out => out.1) := by
  refine ⟨?_, ?_, ?_⟩ <;> rfl

/-- C5 (amended): a declined prompt and a failed creation call both make the
loop iteration return the same value None with the remote state unchanged;
the two outcomes differ only in the log events emitted — a cancellation
warning versus a creation-error log naming the failing segment — not in any
value the caller receives, and no ResourceCreationError is raised. -/
theorem c5_cancellation_vs_failure (env : Env) (c : Cont) (part : PathPart)
    (hmiss : findRes c.st part.path = none) :
    (env.confirm c.nPrompt = false →
      ensureStep env c part =
        ([Ev.find part.path none, Ev.prompt part.segment, Ev.warnCancelled],
         Sum.inr (none, c.st))) ∧
    (env.confirm c.nPrompt = true → env.createResult c.nCreate = none →
      ensureStep env c part =
        ([Ev.find part.path none, Ev.prompt part.segment,
          Ev.create c.parentId part.path part.segment none,
          Ev.errorCreate part.segment],
         Sum.inr (none, c.st))) := by
  constructor
  · intro hconf
    simp [ensureStep, hmiss, hconf]
  · intro hconf hcr
    simp [ensureStep, hmiss, hconf, hcr]

/-- Witness for C5: both loop-iteration outcomes computed at a concrete
missing segment. -/
theorem c5_witness :
    ensureStep ⟨fun _ => false, fun _ => some "X"⟩
        ⟨[("/", "root")], 0, 0, some "root", some "root"⟩
        ⟨"/a", "a", false, none⟩ =
      ([Ev.find "/a" none, Ev.prompt "a", Ev.warnCancelled],
       Sum.inr (none, [("/", "root")])) ∧
    ensureStep ⟨fun _ => true, fun _ => none⟩
        ⟨[("/", "root")], 0, 0, some "root", some "root"⟩
        ⟨"/a", "a", false, none⟩ =
      ([Ev.find "/a" none, Ev.prompt "a",
        Ev.create (some "root") "/a" "a" none, Ev.errorCreate "a"],
       Sum.inr (none, [("/", "root")])) :=
  ⟨(c5_cancellation_vs_failure ⟨fun _ => false, fun _ => some "X"⟩
      ⟨[("/", "root")], 0, 0, some "root", some "root"⟩
      ⟨"/a", "a", false, none⟩ (by decide)).1 rfl,
   (c5_cancellation_vs_failure ⟨fun _ => true, fun _ => none⟩
      ⟨[("/", "root")], 0, 0, some "root", some "root"⟩
      ⟨"/a", "a", false, none⟩ (by decide)).2 rfl rfl⟩

/-- C6: evaluating the parser at the malformed path with an empty brace pair
exercises the unguarded first-capture access findall(...)[0] on an empty
capture list and raises rather than returning a segment list — the modelled
parser yields none.  The three good-looking variants around it return
normally, isolating the failure to the segment containing braces with no
well-formed identifier token. -/
theorem c6_parser_totality_bug :
    parse_uri_path (String.mk ['/', '{', '}']) = none ∧
    (parse_uri_path "/a").isSome = true ∧
    (parse_uri_path "/{id}").isSome = true ∧
    (parse_uri_path "").isSome = true := by
  refine ⟨rfl, rfl, rfl, rfl⟩

/-- The whole-segment parameter pattern of the claim's wording: the segment
is exactly one opening brace, one or more word characters, and one closing
brace.  Stated from the specification text, to compare against the source's
behaviour. -/
def specWholeParamMatch (s : String) : Bool :=
  match s.data with
  | '{' :: rest =>
    let w := rest.takeWhile isWordChar
    (decide (w ≠ [])) && (rest.drop w.length == ['}'])
  | _ => false

/-- Counterexample to C7 as frozen: the segment with text around the brace
token does not wholly match the parameter pattern, yet the parser marks it
as a parameter with the embedded identifier as its name. -/
theorem c7_counterexample :
    parse_uri_path (String.mk ['/', 'x', '{', 'i', 'd', '}', 'y']) =
      some [⟨String.mk ['/', 'x', '{', 'i', 'd', '}', 'y'],
             String.mk ['x', '{', 'i', 'd', '}', 'y'], true, some "id"⟩] ∧
    specWholeParamMatch (String.mk ['x', '{', 'i', 'd', '}', 'y']) = false := by
  refine ⟨rfl, rfl⟩

/-- C7 (amended): a parsed segment is marked as a parameter iff its text
contains an opening brace and a closing brace anywhere — not only when the
whole segment matches the parameter pattern — and every segment so marked
has as its parameter name the first brace-enclosed identifier of the
segment (the parse raises instead of returning when no such identifier
exists). -/
theorem c7_parameter_detection (uri_path : String) (parts : List PathPart)
    (h : parse_uri_path uri_path = some parts) :
    ∀ part ∈ parts,
      part.is_param = (containsChar part.segment '{' &&
        containsChar part.segment '}') ∧
      (part.is_param = true →
        part.param_name =
          ((findBraceTokens part.segment.data).head?).map
            (fun w => String.mk w)) := by
  have main : ∀ (segs : List String) (acc : String) (ps : List PathPart),
      parseLoop acc segs = some ps →
      ∀ part ∈ ps,
        part.is_param = (containsChar part.segment '{' &&
          containsChar part.segment '}') ∧
        (part.is_param = true →
          part.param_name =
            ((findBraceTokens part.segment.data).head?).map
              (fun w => String.mk w)) := by
    intro segs
    induction segs with
    | nil =>
      intro acc ps h part hp
      simp only [parseLoop, Option.some.injEq] at h
      subst h
      simp at hp
    | cons seg rest ih =>
      intro acc ps h part hp
      by_cases hb : (containsChar seg '{' && containsChar seg '}') = true
      · simp only [parseLoop, hb, if_true] at h
        cases hfbt : findBraceTokens seg.data with
        | nil => rw [hfbt] at h; simp at h
        | cons w ws =>
          rw [hfbt] at h
          cases hrec : parseLoop (acc ++ "/" ++ seg) rest with
          | none => rw [hrec] at h; simp at h
          | some ps₂ =>
            rw [hrec] at h
            simp only [Option.map_some', Option.some.injEq] at h
            subst h
            simp only [List.mem_cons] at hp
            rcases hp with hp | hp
            · subst hp
              refine ⟨by simp [hb], fun _ => ?_⟩
              simp [hfbt]
            · exact ih (acc ++ "/" ++ seg) ps₂ hrec part hp
      · simp only [parseLoop, hb, Bool.false_eq_true, if_false] at h
        cases hrec : parseLoop (acc ++ "/" ++ seg) rest with
        | none => rw [hrec] at h; simp at h
        | some ps₂ =>
          rw [hrec] at h
          simp only [Option.map_some', Option.some.injEq] at h
          subst h
          simp only [List.mem_cons] at hp
          rcases hp with hp | hp
          · subst hp
            refine ⟨by simp [hb], fun hfalse => ?_⟩
            simp at hfalse
          · exact ih (acc ++ "/" ++ seg) ps₂ hrec part hp
  unfold parse_uri_path at h
  exact main _ "" parts h

/-- Witness for C7 at the parameter segment of a concrete two-segment
path. -/
theorem c7_witness :
    (⟨"/a/{id}", "{id}", true, some "id"⟩ : PathPart).is_param =
      (containsChar (⟨"/a/{id}", "{id}", true, some "id"⟩ : PathPart).segment '{' &&
       containsChar (⟨"/a/{id}", "{id}", true, some "id"⟩ : PathPart).segment '}') ∧
    (⟨"/a/{id}", "{id}", true, some "id"⟩ : PathPart).param_name =
      ((findBraceTokens
          (⟨"/a/{id}", "{id}", true, some "id"⟩ : PathPart).segment.data).head?).map
        (fun w => String.mk w) :=
  ⟨(c7_parameter_detection "/a/{id}"
      [⟨"/a", "a", false, none⟩, ⟨"/a/{id}", "{id}", true, some "id"⟩]
      (by decide) ⟨"/a/{id}", "{id}", true, some "id"⟩ (by decide)).1,
   (c7_parameter_detection "/a/{id}"
      [⟨"/a", "a", false, none⟩, ⟨"/a/{id}", "{id}", true, some "id"⟩]
      (by decide) ⟨"/a/{id}", "{id}", true, some "id"⟩ (by decide)).2 rfl⟩

/-- Outcomes of the four remote calls create_http_method issues, after
conflict tolerance where the source requests it: the put-method call, the
put-integration call, the put-method-response call and the
put-integration-response call. -/
structure MethodEnv where
  putMethodOk : Bool
  putIntegrationOk : Bool
  putMethodResponseOk : Bool
  putIntegrationResponseOk : Bool
deriving Repr, DecidableEq

/-- Call events of one create_http_method run. -/
inductive MEv where
  | configError
  | putMethod (ok : Bool)
  | putIntegration (ok : Bool)
  | putMethodResponse (ok : Bool)
  | putIntegrationResponse (ok : Bool)
deriving Repr, DecidableEq

/-- APIGatewayManager.create_http_method, control and result flow: derive
the authorization type from the auth type, fail before any remote call when
a Cognito authorization lacks an authorizer id, then issue put-method and
put-integration (each aborting the method on failure), issue
put-method-response with its result discarded, and finally return the
put-integration-response call's success as the method's own result.  The
request-parameter and header shaping of the source is data carried by the
calls and does not influence this flow; the integration URI construction is
modelled separately by integration_uri. -/
def create_http_method (menv : MethodEnv) (auth_type : String)
    (authorizer_id : Option String) : Bool × List MEv :=
  let authorization_type :=
    if auth_type = "NO_AUTH" then "NONE" else "COGNITO_USER_POOLS"
  let authorizer := if auth_type = "NO_AUTH" then none else authorizer_id
  if authorizer = none ∧ authorization_type = "COGNITO_USER_POOLS" then
    (false, [MEv.configError])
  else if menv.putMethodOk = false then
    (false, [MEv.putMethod false])
  else if menv.putIntegrationOk = false then
    (false, [MEv.putMethod true, MEv.putIntegration false])
  else
    (menv.putIntegrationResponseOk,
     [MEv.putMethod true, MEv.putIntegration true,
      MEv.putMethodResponse menv.putMethodResponseOk,
      MEv.putIntegrationResponse menv.putIntegrationResponseOk])

/-- Counterexample to C8 as frozen: with both primary calls succeeding and
the method-response call succeeding, a failed integration-response call
makes create_http_method report the method as NOT created (it returns the
integration-response call's success), contrary to the claim that failures
of either secondary call leave the method reported as successfully
created. -/
theorem c8_counterexample :
    create_http_method ⟨true, true, true, false⟩ "NO_AUTH" none =
      (false, [MEv.putMethod true, MEv.putIntegration true,
        MEv.putMethodResponse true, MEv.putIntegrationResponse false]) := by
  rfl

/-- C8 (amended): when the primary put-method and put-integration calls
succeed, the method-response call's outcome never affects the reported
result — a method-response failure is soft — while the reported result
equals exactly the integration-response call's success, so an
integration-response failure does fail the method as a whole. -/
theorem c8_soft_failure_policy (menv : MethodEnv) (auth_type : String)
    (authorizer_id : Option String)
    (hauth : auth_type = "NO_AUTH" ∨ authorizer_id ≠ none)
    (hm : menv.putMethodOk = true) (hi : menv.putIntegrationOk = true) :
    (create_http_method menv auth_type authorizer_id).1 =
      menv.putIntegrationResponseOk ∧
    MEv.putMethodResponse menv.putMethodResponseOk ∈
      (create_http_method menv auth_type authorizer_id).2 := by
  by_cases hA : auth_type = "NO_AUTH"
  · simp [create_http_method, hA, hm, hi]
  · have hz : authorizer_id ≠ none := hauth.resolve_left hA
    simp [create_http_method, hA, hm, hi, hz]

/-- Witness for C8: the method-response call fails yet the method is
reported created because the integration-response call succeeds. -/
theorem c8_witness :
    (create_http_method ⟨true, true, false, true⟩ "NO_AUTH" none).1 = true ∧
    MEv.putMethodResponse false ∈
      (create_http_method ⟨true, true, false, true⟩ "NO_AUTH" none).2 :=
  c8_soft_failure_policy ⟨true, true, false, true⟩ "NO_AUTH" none
    (Or.inl rfl) rfl rfl

/-- The path-splitting step of create_endpoint_workflow: strip surrounding
slashes from the full backend path and split on slashes; when more than one
part remains, register the slash-prefixed join of all but the first part as
the gateway resource path, otherwise register the full backend path
unchanged. -/
def api_resource_path (full_backend_path : String) : String :=
  let path_parts :=
    (splitSlash (stripSlashes full_backend_path.data)).map String.mk
  if path_parts.length > 1 then "/" ++ joinSegs (path_parts.drop 1)
  else full_backend_path

/-- The integration URI of create_http_method: the backend host with the
original full backend path appended, never the stripped resource path. -/
def integration_uri (backend_host full_backend_path : String) : String :=
  backend_host ++ full_backend_path

/-- C9: a well-formed full backend path of at least two slash-free non-empty
segments has its first segment stripped to form the gateway resource path; a
single-segment path is registered unchanged; and the integration URI is
always the backend host followed by the unstripped full backend path. -/
theorem c9_backend_path_stripping (service : String) (rest : List String)
    (single : String) (backend_host full_backend_path : String)
    (hsvc_ne : service.data ≠ []) (hsvc : ∀ c ∈ service.data, c ≠ '/')
    (hrest_ne : rest ≠ [])
    (hrest : ∀ s ∈ rest, s.data ≠ [] ∧ ∀ c ∈ s.data, c ≠ '/')
    (_hsingle_ne : single.data ≠ []) (hsingle : ∀ c ∈ single.data, c ≠ '/') :
    api_resource_path ("/" ++ joinSegs (service :: rest)) =
      "/" ++ joinSegs rest ∧
    api_resource_path ("/" ++ single) = "/" ++ single ∧
    integration_uri backend_host full_backend_path =
      backend_host ++ full_backend_path := by
  refine ⟨?_, ?_, rfl⟩
  · have hgood : ∀ s ∈ service :: rest, s.data ≠ [] ∧ ∀ c ∈ s.data, c ≠ '/' := by
      intro x hx
      rcases List.mem_cons.mp hx with hx | hx
      · subst hx; exact ⟨hsvc_ne, hsvc⟩
      · exact hrest x hx
    have hb := joinSegs_boundary (service :: rest) (by simp) hgood
    have hstrip : stripSlashes ("/" ++ joinSegs (service :: rest)).data =
        (joinSegs (service :: rest)).data := by
      rw [slash_append_data]
      exact stripSlashes_slash_cons _ hb.1 hb.2
    have hsplit : splitSlash (joinSegs (service :: rest)).data =
        (service :: rest).map String.data :=
      splitSlash_join (service :: rest) (by simp) (fun x hx => (hgood x hx).2)
    have hlen : ((service :: rest).length > 1) := by
      have : rest.length > 0 := List.length_pos.mpr hrest_ne
      simp only [List.length_cons]
      omega
    simp only [api_resource_path, hstrip, hsplit, map_mk_map_data]
    rw [if_pos hlen]
    simp
  · have hstrip : stripSlashes ("/" ++ single).data = single.data := by
      rw [slash_append_data]
      refine stripSlashes_slash_cons _ ?_ ?_
      · intro c hc
        exact hsingle c (List.mem_of_mem_head? (by simp [hc]))
      · intro c hc
        exact hsingle c (List.mem_of_mem_getLast? (by simp [hc]))
    have hsplit : splitSlash single.data = [single.data] :=
      splitSlash_no_slash single.data hsingle
    simp only [api_resource_path, hstrip, hsplit]
    rfl

/-- Witness for C9 on the specification's worked example, the backend path
billing v1 invoices invoiceId. -/
theorem c9_witness :
    api_resource_path
        ("/" ++ joinSegs ["billing", "v1", "invoices", "{invoiceId}"]) =
      "/" ++ joinSegs ["v1", "invoices", "{invoiceId}"] ∧
    api_resource_path ("/" ++ "health") = "/" ++ "health" ∧
    integration_uri "https://backend" "/billing/v1/invoices/{invoiceId}" =
      "https://backend" ++ "/billing/v1/invoices/{invoiceId}" :=
  c9_backend_path_stripping "billing" ["v1", "invoices", "{invoiceId}"]
    "health" "https://backend" "/billing/v1/invoices/{invoiceId}"
    (by decide) (by decide) (by decide) (by decide) (by decide) (by decide)

/-- PathParser of the serverless variant: strip surrounding slashes and
split on slashes, an emptied path giving no segments. -/
def lambdaParseSegments (path : String) : List String :=
  let clean := String.mk (stripSlashes path.data)
  if clean = "" then [] else (splitSlash clean.data).map String.mk

/-- Oracles of one serverless run: the id assigned by the n-th
create-resource call (none for a failed call), and the outcomes of the
method-creation, integration, CORS-enablement and verification steps that
the endpoint flow consults. -/
structure LEnv where
  createResult : Nat → Option String
  methodsOk : Bool
  integrationsOk : Bool
  corsEnabled : Bool
  verifyOk : Bool

/-- Result of create_resource_hierarchy: the leaf resource id with the
created and skipped counters, or an error message. -/
inductive HRes where
  | ok (resource_id : String) (created skipped : Nat)
  | err (msg : String)
deriving Repr, DecidableEq

/-- Segment loop of create_resource_hierarchy: build the cumulative path,
look it up, advance on a hit counting a skip, and otherwise create the node
at once — no confirmation prompt exists in this variant — failing the whole
call when the creation call fails. -/
def hierLoop (lenv : LEnv) :
    St → String → String → Nat → Nat → Nat → List String → HRes × List Ev × St
  | st, parent, _, _, created, skipped, [] =>
    (HRes.ok parent created skipped, [], st)
  | st, parent, cur, nCreate, created, skipped, seg :: rest =>
    match findRes st (cur ++ "/" ++ seg) with
    | some existingId =>
      let out := hierLoop lenv st existingId (cur ++ "/" ++ seg) nCreate
        created (skipped + 1) rest
      (out.1, Ev.find (cur ++ "/" ++ seg) (some existingId) :: out.2.1, out.2.2)
    | none =>
      match lenv.createResult nCreate with
      | none =>
        (HRes.err ("Failed to create resource: " ++ seg),
         [Ev.find (cur ++ "/" ++ seg) none,
          Ev.create (some parent) (cur ++ "/" ++ seg) seg none], st)
      | some newId =>
        let out := hierLoop lenv (st ++ [(cur ++ "/" ++ seg, newId)]) newId
          (cur ++ "/" ++ seg) (nCreate + 1) (created + 1) skipped rest
        (out.1,
         Ev.find (cur ++ "/" ++ seg) none ::
           Ev.create (some parent) (cur ++ "/" ++ seg) seg (some newId) ::
           out.2.1,
         out.2.2)

/-- create_resource_hierarchy of the serverless variant: resolve the root,
failing when it is absent, then run the segment loop from the root with the
empty cumulative path and zeroed counters. -/
def create_resource_hierarchy (lenv : LEnv) (st : St) (segments : List String) :
    HRes × List Ev × St :=
  match findRes st "/" with
  | none => (HRes.err "Could not find root resource", [Ev.find "/" none], st)
  | some rootId =>
    let out := hierLoop lenv st rootId "" 0 0 0 segments
    (out.1, Ev.find "/" (some rootId) :: out.2.1, out.2.2)

/-- The endpoint flow of the serverless variant around the hierarchy step:
parse, build the hierarchy (aborting on its failure), create methods and
integrations (aborting on failure, their internals abstracted as oracle
outcomes), then attempt at most one CORS configuration — on the final leaf
resource only, and only when enabled — and finally verify. -/
def lambda_create_endpoint (lenv : LEnv) (st : St) (path : String) :
    Option String × List Ev × St :=
  match create_resource_hierarchy lenv st (lambdaParseSegments path) with
  | (HRes.err _, tr, st₂) => (none, tr, st₂)
  | (HRes.ok rid _ _, tr, st₂) =>
    if lenv.methodsOk = false then (none, tr, st₂)
    else if lenv.integrationsOk = false then (none, tr, st₂)
    else
      let tr₂ := tr ++ (if lenv.corsEnabled then [Ev.corsCall rid] else [])
      if lenv.verifyOk = false then (none, tr₂, st₂) else (some rid, tr₂, st₂)

/-- Every lookup that misses is followed immediately by a creation call —
the auto-confirm discipline of the serverless variant — and no prompt event
occurs. -/
def autoCreate : List Ev → Bool
  | [] => true
  | Ev.find _ none :: Ev.create _ _ _ _ :: rest => autoCreate rest
  | Ev.find _ none :: _ => false
  | Ev.prompt _ :: _ => false
  | _ :: rest => autoCreate rest

/-- The segment loop of the serverless variant emits no prompt, no
preflight attachment and no CORS call, and — whatever well-behaved trace is
appended after it — every miss is followed at once by a creation call with
no prompt in between. -/
theorem hierLoop_events (lenv : LEnv) (segments : List String) :
    ∀ (st : St) (parent cur : String) (nC cr sk : Nat),
    (hierLoop lenv st parent cur nC cr sk segments).2.1.countP isPromptEv = 0 ∧
    (hierLoop lenv st parent cur nC cr sk segments).2.1.countP isOptionsEv = 0 ∧
    (hierLoop lenv st parent cur nC cr sk segments).2.1.countP isCorsEv = 0 ∧
    (∀ tailEv : List Ev, autoCreate tailEv = true →
      autoCreate ((hierLoop lenv st parent cur nC cr sk segments).2.1 ++ tailEv)
        = true) := by
  induction segments with
  | nil =>
    intro st parent cur nC cr sk
    exact ⟨rfl, rfl, rfl, fun tailEv ht => by simpa using ht⟩
  | cons seg rest ih =>
    intro st parent cur nC cr sk
    cases hfind : findRes st (cur ++ "/" ++ seg) with
    | some existingId =>
      obtain ⟨i1, i2, i3, i4⟩ :=
        ih st existingId (cur ++ "/" ++ seg) nC cr (sk + 1)
      simp only [hierLoop, hfind]
      exact ⟨by simpa [List.countP_cons, isPromptEv] using i1,
        by simpa [List.countP_cons, isOptionsEv] using i2,
        by simpa [List.countP_cons, isCorsEv] using i3,
        fun tailEv ht => by simpa [autoCreate] using i4 tailEv ht⟩
    | none =>
      cases hcr : lenv.createResult nC with
      | none =>
        simp only [hierLoop, hfind, hcr]
        exact ⟨rfl, rfl, rfl, fun tailEv ht => by simpa [autoCreate] using ht⟩
      | some newId =>
        obtain ⟨i1, i2, i3, i4⟩ :=
          ih (st ++ [(cur ++ "/" ++ seg, newId)]) newId (cur ++ "/" ++ seg)
            (nC + 1) (cr + 1) sk
        simp only [hierLoop, hfind, hcr]
        exact ⟨by simpa [List.countP_cons, isPromptEv] using i1,
          by simpa [List.countP_cons, isOptionsEv] using i2,
          by simpa [List.countP_cons, isCorsEv] using i3,
          fun tailEv ht => by simpa [autoCreate] using i4 tailEv ht⟩

/-- C10: the serverless reconciliation variant creates every missing
segment with no confirmation step at all, never issues a preflight
attachment for the nodes it creates, and the endpoint flow around it
attempts at most one CORS configuration, after the hierarchy is built and
targeting the final leaf resource id only — intermediate nodes receive no
preflight method. -/
theorem c10_serverless_variant (lenv : LEnv) (st : St) (path : String)
    (rootId : String) (hroot : findRes st "/" = some rootId) :
    (lambda_create_endpoint lenv st path).2.1.countP isPromptEv = 0 ∧
    (lambda_create_endpoint lenv st path).2.1.countP isOptionsEv = 0 ∧
    autoCreate (lambda_create_endpoint lenv st path).2.1 = true ∧
    (lambda_create_endpoint lenv st path).2.1.filter isCorsEv =
      (match create_resource_hierarchy lenv st (lambdaParseSegments path) with
       | (HRes.ok rid _ _, _, _) =>
         if lenv.methodsOk && lenv.integrationsOk && lenv.corsEnabled then
           [Ev.corsCall rid]
         else []
       | (HRes.err _, _, _) => []) ∧
    (create_resource_hierarchy lenv st
        (lambdaParseSegments path)).2.1.countP isCorsEv = 0 := by
  obtain ⟨l1, l2, l3, l4⟩ :=
    hierLoop_events lenv (lambdaParseSegments path) st rootId "" 0 0 0
  have hch : create_resource_hierarchy lenv st (lambdaParseSegments path) =
      ((hierLoop lenv st rootId "" 0 0 0 (lambdaParseSegments path)).1,
       Ev.find "/" (some rootId) ::
         (hierLoop lenv st rootId "" 0 0 0 (lambdaParseSegments path)).2.1,
       (hierLoop lenv st rootId "" 0 0 0 (lambdaParseSegments path)).2.2) := by
    simp [create_resource_hierarchy, hroot]
  cases hloop : hierLoop lenv st rootId "" 0 0 0 (lambdaParseSegments path) with
  | mk r rest =>
    rw [hloop] at hch l1 l2 l3 l4
    simp only [] at l1 l2 l3 l4
    have hrestfilter : rest.1.filter isCorsEv = [] := by
      rw [List.filter_eq_nil_iff]
      intro ev hev hc
      exact (List.countP_eq_zero.mp l3 ev hev) hc
    cases r with
    | err msg =>
      have hshape : (lambda_create_endpoint lenv st path).2.1 =
          Ev.find "/" (some rootId) :: rest.1 := by
        simp [lambda_create_endpoint, hch]
      refine ⟨?_, ?_, ?_, ?_, ?_⟩
      · rw [hshape, List.countP_cons]
        simpa [isPromptEv] using l1
      · rw [hshape, List.countP_cons]
        simpa [isOptionsEv] using l2
      · rw [hshape]
        rw [show autoCreate (Ev.find "/" (some rootId) :: rest.1) =
              autoCreate rest.1 from rfl]
        simpa using l4 [] rfl
      · rw [hshape, hch, List.filter_cons]
        simp [isCorsEv, hrestfilter]
      · rw [hch, List.countP_cons]
        simpa [isCorsEv] using l3
    | ok rid cr sk =>
      cases hB : lenv.methodsOk && lenv.integrationsOk && lenv.corsEnabled with
      | false =>
        have hshape : (lambda_create_endpoint lenv st path).2.1 =
            Ev.find "/" (some rootId) :: rest.1 := by
          cases hm : lenv.methodsOk <;> cases hi : lenv.integrationsOk <;>
            cases hv : lenv.verifyOk <;> cases hc : lenv.corsEnabled <;>
            rw [hm, hi, hc] at hB <;> simp_all [lambda_create_endpoint, hch]
        refine ⟨?_, ?_, ?_, ?_, ?_⟩
        · rw [hshape, List.countP_cons]
          simpa [isPromptEv] using l1
        · rw [hshape, List.countP_cons]
          simpa [isOptionsEv] using l2
        · rw [hshape]
          rw [show autoCreate (Ev.find "/" (some rootId) :: rest.1) =
                autoCreate rest.1 from rfl]
          simpa using l4 [] rfl
        · rw [hshape, hch, List.filter_cons]
          simp [isCorsEv, hrestfilter, hB]
        · rw [hch, List.countP_cons]
          simpa [isCorsEv] using l3
      | true =>
        have hm : lenv.methodsOk = true := by
          cases hv : lenv.methodsOk
          · rw [hv] at hB; simp at hB
          · rfl
        have hi : lenv.integrationsOk = true := by
          cases hv : lenv.integrationsOk
          · rw [hv] at hB; simp at hB
          · rfl
        have hc : lenv.corsEnabled = true := by
          cases hv : lenv.corsEnabled
          · rw [hv] at hB; simp at hB
          · rfl
        have hshape : (lambda_create_endpoint lenv st path).2.1 =
            (Ev.find "/" (some rootId) :: rest.1) ++ [Ev.corsCall rid] := by
          cases hv : lenv.verifyOk <;>
            simp [lambda_create_endpoint, hch, hm, hi, hc, hv]
        refine ⟨?_, ?_, ?_, ?_, ?_⟩
        · rw [hshape, List.countP_append, List.countP_cons]
          simp only [List.countP_cons, List.countP_nil]
          simpa [isPromptEv] using l1
        · rw [hshape, List.countP_append, List.countP_cons]
          simp only [List.countP_cons, List.countP_nil]
          simpa [isOptionsEv] using l2
        · rw [hshape]
          rw [show ((Ev.find "/" (some rootId) :: rest.1) ++ [Ev.corsCall rid]) =
                Ev.find "/" (some rootId) :: (rest.1 ++ [Ev.corsCall rid]) from
              rfl]
          rw [show autoCreate (Ev.find "/" (some rootId) ::
                (rest.1 ++ [Ev.corsCall rid])) =
                autoCreate (rest.1 ++ [Ev.corsCall rid]) from rfl]
          exact l4 [Ev.corsCall rid] rfl
        · rw [hshape, hch, List.filter_append, List.filter_cons]
          simp [isCorsEv, hrestfilter, hB]
        · rw [hch, List.countP_cons]
          simpa [isCorsEv] using l3

/-- Witness for C10: a run over a remote state holding only the root, a
two-segment path, successful creations and all downstream steps enabled. -/
theorem c10_witness :
    (lambda_create_endpoint
        ⟨fun k => some ("n" ++ toString k), true, true, true, true⟩
        [("/", "root")] "/a/b").2.1.countP isPromptEv = 0 ∧
    (lambda_create_endpoint
        ⟨fun k => some ("n" ++ toString k), true, true, true, true⟩
        [("/", "root")] "/a/b").2.1.countP isOptionsEv = 0 ∧
    autoCreate (lambda_create_endpoint
        ⟨fun k => some ("n" ++ toString k), true, true, true, true⟩
        [("/", "root")] "/a/b").2.1 = true ∧
    (lambda_create_endpoint
        ⟨fun k => some ("n" ++ toString k), true, true, true, true⟩
        [("/", "root")] "/a/b").2.1.filter isCorsEv =
      (match create_resource_hierarchy
          ⟨fun k => some ("n" ++ toString k), true, true, true, true⟩
          [("/", "root")] (lambdaParseSegments "/a/b") with
       | (HRes.ok rid _ _, _, _) =>
         if (true : Bool) && (true : Bool) && (true : Bool) then
           [Ev.corsCall rid]
         else []
       | (HRes.err _, _, _) => []) ∧
    (create_resource_hierarchy
        ⟨fun k => some ("n" ++ toString k), true, true, true, true⟩
        [("/", "root")] (lambdaParseSegments "/a/b")).2.1.countP isCorsEv = 0 :=
  c10_serverless_variant
    ⟨fun k => some ("n" ++ toString k), true, true, true, true⟩
    [("/", "root")] "/a/b" "root" (by decide)

end ApiGatewayCreator
